import Mathlib

/-!
# Verification of the `sourcefile` library (src/lib.rs)

Shallow embedding of the `SourceFile` data structure: a concatenated list of
files with the metadata required to resolve byte offsets back to
(file, line, column) positions.

Modelling choices:
* `contents` is a list of bytes (`List Nat`); Rust's `str::split('\n')` on
  UTF-8 bytes coincides with splitting the byte list on byte `10`.
* Rust's fallible `Vec::get` is `List.get?`; unchecked indexing
  (`v[i]`, which panics when out of bounds) and `usize` subtraction (which
  panics on underflow in debug builds) are modelled in an `Except Unit`
  monad whose `.error ()` value marks a panic.
* `fs::read_to_string` in `add_file` is modelled by an explicit
  `readResult : Except Unit (List Nat)` argument (the outcome of the read).
-/

/-- A position in a source file (struct `Position` in the source).
`line` and `col` are 0-indexed. -/
structure Position where
  filename : String
  line : Nat
  col : Nat
deriving DecidableEq

/-- A span in a source file (struct `Span` in the source).
`stop` embeds the source's `end` field (`end` is a Lean keyword). -/
structure Span where
  start : Position
  stop : Position
deriving DecidableEq

/-- The aggregate (struct `SourceFile` in the source). -/
structure SourceFile where
  contents : List Nat
  file_names : List String
  file_lines : List Nat
  line_lengths : List Nat
deriving DecidableEq

/-- `SourceFile::new` / `Default::default`: the empty source file. -/
def SourceFile.new : SourceFile := ⟨[], [], [], []⟩

/-- `str::split('\n')` on the byte representation: split a byte list on the
newline byte `10`.  Like Rust's `split`, it always yields at least one
(possibly empty) piece. -/
def splitNl : List Nat → List (List Nat)
  | [] => [[]]
  | b :: rest =>
    if b = 10 then [] :: splitNl rest
    else
      match splitNl rest with
      | [] => [[b]]
      | p :: ps => (b :: p) :: ps

/-- The loop body of `add_file_raw` (lines 49-61 of lib.rs), applied to the
pieces produced by splitting on newline: every piece followed by another
("middle line", detected through `peekable`) records `len + 1`; an empty last
piece records nothing; a non-empty last piece records its raw length.
Each recorded entry corresponds to one `num_lines += 1`. -/
def recordLines : List (List Nat) → List Nat
  | [] => []
  | [p] => if p = [] then [] else [p.length]
  | p :: q :: rest => (p.length + 1) :: recordLines (q :: rest)

/-- `SourceFile::add_file_raw`: skip empty content entirely; otherwise record
the per-line lengths, push the name, push the line count, and append the
content. -/
def SourceFile.add_file_raw (sf : SourceFile) (name : String)
    (contents : List Nat) : SourceFile :=
  if contents = [] then sf
  else
    let lens := recordLines (splitNl contents)
    { contents := sf.contents ++ contents
      file_names := sf.file_names ++ [name]
      file_lines := sf.file_lines ++ [lens.length]
      line_lengths := sf.line_lengths ++ lens }

/-- `SourceFile::add_file`: read the file (outcome supplied as `readResult`),
propagate a read error with the state untouched (`?` at line 32), otherwise
delegate to `add_file_raw`.  The pair returns the Rust `io::Result<()>`
together with the mutated receiver. -/
def SourceFile.add_file (sf : SourceFile) (filename : String)
    (readResult : Except Unit (List Nat)) : Except Unit Unit × SourceFile :=
  match readResult with
  | .error u => (.error u, sf)
  | .ok file => (.ok (), sf.add_file_raw filename file)

/-- The `while line_acc <= offset` loop of `resolve_offset` (lines 77-83):
`acc` is the running total including the entry at index `idx`, and `rest`
holds the entries after index `idx`.  The lookup of the next entry uses
`Vec::get`, so exhausting the list yields `none`. -/
def scanLoop (target : Nat) : Nat → Nat → List Nat → Option (Nat × Nat)
  | acc, idx, [] => if target < acc then some (idx, acc) else none
  | acc, idx, l :: rest =>
    if target < acc then some (idx, acc)
    else scanLoop target (acc + l) (idx + 1) rest

/-- The `while file_acc <= line_idx` loop of `resolve_offset` (lines 90-93):
same shape as `scanLoop`, but the lookup is the unchecked `file_lines[file_idx]`,
so exhausting the list is a panic (`.error ()`). -/
def scanLoopP (target : Nat) : Nat → Nat → List Nat → Except Unit (Nat × Nat)
  | acc, idx, [] => if target < acc then .ok (idx, acc) else .error ()
  | acc, idx, l :: rest =>
    if target < acc then .ok (idx, acc)
    else scanLoopP target (acc + l) (idx + 1) rest

/-- Lines 77-83 of `resolve_offset`: `line_lengths.get(0)?` then the line
loop, yielding the line index and the running total through that line. -/
def lineSearch (offset : Nat) (ll : List Nat) : Option (Nat × Nat) :=
  match ll with
  | [] => none
  | l0 :: rest => scanLoop offset l0 0 rest

/-- Lines 88-93 of `resolve_offset`: `file_lines[0]` (panics when empty) then
the file loop. -/
def fileSearch (lineIdx : Nat) (fl : List Nat) : Except Unit (Nat × Nat) :=
  match fl with
  | [] => .error ()
  | f0 :: rest => scanLoopP lineIdx f0 0 rest

/-- `usize` subtraction with panic on underflow. -/
def checkedSub (a b : Nat) : Except Unit Nat :=
  if b ≤ a then .ok (a - b) else .error ()

/-- `SourceFile::resolve_offset`, panic-aware: `.error ()` is a panic,
`.ok none` is Rust's `None`, `.ok (some p)` is `Some(p)`.  Every unchecked
index and every subtraction of the source is modelled by a checked step. -/
def SourceFile.resolve_offsetE (sf : SourceFile) (offset : Nat) :
    Except Unit (Option Position) :=
  match lineSearch offset sf.line_lengths with
  | none => .ok none
  | some (lineIdx, lineAcc0) =>
    match sf.line_lengths.get? lineIdx with
    | none => .error ()
    | some ll =>
      match checkedSub lineAcc0 ll with
      | .error u => .error u
      | .ok lineAcc =>
        match fileSearch lineIdx sf.file_lines with
        | .error u => .error u
        | .ok (fileIdx, fileAcc0) =>
          match sf.file_lines.get? fileIdx with
          | none => .error ()
          | some fll =>
            match checkedSub fileAcc0 fll with
            | .error u => .error u
            | .ok fileAcc =>
              match sf.file_names.get? fileIdx with
              | none => .error ()
              | some name =>
                match checkedSub lineIdx fileAcc, checkedSub offset lineAcc with
                | .ok line, .ok col => .ok (some ⟨name, line, col⟩)
                | .error u, _ => .error u
                | _, .error u => .error u

/-- `SourceFile::resolve_offset` with panics collapsed into `none`. -/
def SourceFile.resolve_offset (sf : SourceFile) (offset : Nat) :
    Option Position :=
  match sf.resolve_offsetE offset with
  | .ok r => r
  | .error _ => none

/-- `SourceFile::resolve_offset_span`, panic-aware: reject `stop < start`,
then resolve both ends with `?`-propagation. -/
def SourceFile.resolve_offset_spanE (sf : SourceFile) (start stop : Nat) :
    Except Unit (Option Span) :=
  if stop < start then .ok none
  else
    match sf.resolve_offsetE start with
    | .error u => .error u
    | .ok none => .ok none
    | .ok (some a) =>
      match sf.resolve_offsetE stop with
      | .error u => .error u
      | .ok none => .ok none
      | .ok (some b) => .ok (some ⟨a, b⟩)

/-- `SourceFile::resolve_offset_span` with panics collapsed into `none`. -/
def SourceFile.resolve_offset_span (sf : SourceFile) (start stop : Nat) :
    Option Span :=
  match sf.resolve_offset_spanE start stop with
  | .ok r => r
  | .error _ => none

/-- The reachable states: every state obtained from the empty source file by
a sequence of `add_file_raw` calls. -/
def SourceFile.build (l : List (String × List Nat)) : SourceFile :=
  l.foldl (fun sf p => sf.add_file_raw p.1 p.2) SourceFile.new

example : splitNl [10] = [[], []] := by decide
example : recordLines (splitNl [10]) = [1] := by decide
example : recordLines (splitNl [32]) = [1] := by decide
example : (SourceFile.new.add_file_raw "a" [104, 10, 105]).line_lengths = [2, 1] := by decide
example : SourceFile.new.resolve_offset 0 = none := by decide
example :
    (SourceFile.new.add_file_raw "a" [104, 10, 105]).resolve_offset 2
      = some ⟨"a", 1, 0⟩ := by decide

/-! ## Characterization of the scan loops -/

theorem scanLoop_some_spec (target : Nat) (rest : List Nat) :
    ∀ (acc idx j a : Nat), scanLoop target acc idx rest = some (j, a) →
      ∃ k, k ≤ rest.length ∧ j = idx + k ∧ a = acc + (rest.take k).sum ∧
        target < a ∧ ∀ m, m < k → acc + (rest.take m).sum ≤ target := by
  induction rest with
  | nil =>
    intro acc idx j a h
    simp only [scanLoop] at h
    by_cases hlt : target < acc
    · simp only [hlt, if_true, Option.some.injEq, Prod.mk.injEq] at h
      exact ⟨0, by simp, by omega, by simp [← h.2], by omega, by omega⟩
    · simp [hlt] at h
  | cons l rest ih =>
    intro acc idx j a h
    simp only [scanLoop] at h
    by_cases hlt : target < acc
    · simp only [hlt, if_true, Option.some.injEq, Prod.mk.injEq] at h
      exact ⟨0, by simp, by omega, by simp [← h.2], by omega, by omega⟩
    · simp only [hlt, if_false] at h
      obtain ⟨k, hk, hj, ha, hta, hmin⟩ := ih (acc + l) (idx + 1) j a h
      refine ⟨k + 1, by simp; omega, by omega, ?_, hta, ?_⟩
      · simp only [List.take_succ_cons, List.sum_cons]
        omega
      · intro m hm
        cases m with
        | zero => simpa using Nat.le_of_not_lt hlt
        | succ m' =>
          have := hmin m' (by omega)
          simp only [List.take_succ_cons, List.sum_cons]
          omega

theorem scanLoop_exists (target : Nat) (rest : List Nat) :
    ∀ acc idx, target < acc + rest.sum →
      ∃ j a, scanLoop target acc idx rest = some (j, a) := by
  induction rest with
  | nil =>
    intro acc idx h
    simp only [List.sum_nil, Nat.add_zero] at h
    exact ⟨idx, acc, by simp [scanLoop, h]⟩
  | cons l rest ih =>
    intro acc idx h
    by_cases hlt : target < acc
    · exact ⟨idx, acc, by simp [scanLoop, hlt]⟩
    · simp only [List.sum_cons] at h
      obtain ⟨j, a, hja⟩ := ih (acc + l) (idx + 1) (by omega)
      exact ⟨j, a, by simp [scanLoop, hlt, hja]⟩

theorem scanLoop_none_spec (target : Nat) (rest : List Nat) :
    ∀ acc idx, acc + rest.sum ≤ target →
      scanLoop target acc idx rest = none := by
  induction rest with
  | nil =>
    intro acc idx h
    simp only [List.sum_nil, Nat.add_zero] at h
    simp [scanLoop]
    omega
  | cons l rest ih =>
    intro acc idx h
    simp only [List.sum_cons] at h
    have hlt : ¬ target < acc := by omega
    simp only [scanLoop, hlt, if_false]
    exact ih _ _ (by omega)

theorem scanLoopP_ok_spec (target : Nat) (rest : List Nat) :
    ∀ (acc idx j a : Nat), scanLoopP target acc idx rest = .ok (j, a) →
      ∃ k, k ≤ rest.length ∧ j = idx + k ∧ a = acc + (rest.take k).sum ∧
        target < a ∧ ∀ m, m < k → acc + (rest.take m).sum ≤ target := by
  induction rest with
  | nil =>
    intro acc idx j a h
    simp only [scanLoopP] at h
    by_cases hlt : target < acc
    · simp only [hlt, if_true, Except.ok.injEq, Prod.mk.injEq] at h
      exact ⟨0, by simp, by omega, by simp [← h.2], by omega, by omega⟩
    · simp [hlt] at h
  | cons l rest ih =>
    intro acc idx j a h
    simp only [scanLoopP] at h
    by_cases hlt : target < acc
    · simp only [hlt, if_true, Except.ok.injEq, Prod.mk.injEq] at h
      exact ⟨0, by simp, by omega, by simp [← h.2], by omega, by omega⟩
    · simp only [hlt, if_false] at h
      obtain ⟨k, hk, hj, ha, hta, hmin⟩ := ih (acc + l) (idx + 1) j a h
      refine ⟨k + 1, by simp; omega, by omega, ?_, hta, ?_⟩
      · simp only [List.take_succ_cons, List.sum_cons]
        omega
      · intro m hm
        cases m with
        | zero => simpa using Nat.le_of_not_lt hlt
        | succ m' =>
          have := hmin m' (by omega)
          simp only [List.take_succ_cons, List.sum_cons]
          omega

theorem scanLoopP_exists (target : Nat) (rest : List Nat) :
    ∀ acc idx, target < acc + rest.sum →
      ∃ j a, scanLoopP target acc idx rest = .ok (j, a) := by
  induction rest with
  | nil =>
    intro acc idx h
    simp only [List.sum_nil, Nat.add_zero] at h
    exact ⟨idx, acc, by simp [scanLoopP, h]⟩
  | cons l rest ih =>
    intro acc idx h
    by_cases hlt : target < acc
    · exact ⟨idx, acc, by simp [scanLoopP, hlt]⟩
    · simp only [List.sum_cons] at h
      obtain ⟨j, a, hja⟩ := ih (acc + l) (idx + 1) (by omega)
      exact ⟨j, a, by simp [scanLoopP, hlt, hja]⟩

theorem scanLoop_here (target acc idx : Nat) (rest : List Nat) (h : target < acc) :
    scanLoop target acc idx rest = some (idx, acc) := by
  cases rest <;> simp [scanLoop, h]

theorem scanLoopP_here (target acc idx : Nat) (rest : List Nat) (h : target < acc) :
    scanLoopP target acc idx rest = .ok (idx, acc) := by
  cases rest <;> simp [scanLoopP, h]

/-! ## Properties of the line splitter and recorder -/

theorem splitNl_ne_nil : ∀ c : List Nat, splitNl c ≠ [] := by
  intro c
  induction c with
  | nil => simp [splitNl]
  | cons b rest ih =>
    by_cases hb : b = 10
    · simp [splitNl, hb]
    · cases h : splitNl rest with
      | nil => simp [splitNl, hb, h]
      | cons p ps => simp [splitNl, hb, h]

theorem recordLines_splitNl_sum :
    ∀ c : List Nat, (recordLines (splitNl c)).sum = c.length := by
  intro c
  induction c with
  | nil => simp [splitNl, recordLines]
  | cons b rest ih =>
    by_cases hb : b = 10
    · cases h : splitNl rest with
      | nil => exact absurd h (splitNl_ne_nil rest)
      | cons p ps =>
        rw [h] at ih
        simp only [splitNl, hb, if_true, h, recordLines, List.sum_cons,
          List.length_nil, List.length_cons] at ih ⊢
        omega
    · cases h : splitNl rest with
      | nil => exact absurd h (splitNl_ne_nil rest)
      | cons p ps =>
        rw [h] at ih
        cases ps with
        | nil =>
          have hip : p.length = rest.length := by
            by_cases hp : p = []
            · simp only [recordLines, hp, if_true, List.sum_nil] at ih
              simp [hp]
              omega
            · simp only [recordLines, hp, if_false, List.sum_cons,
                List.sum_nil] at ih
              omega
          simp only [splitNl, hb, if_false, h]
          simp [recordLines, hip]
        | cons q ps' =>
          simp only [recordLines, List.sum_cons] at ih
          simp only [splitNl, hb, if_false, h, recordLines, List.sum_cons,
            List.length_cons]
          omega

theorem recordLines_pos : ∀ ps : List (List Nat), ∀ x ∈ recordLines ps, 1 ≤ x := by
  intro ps
  induction ps with
  | nil => simp [recordLines]
  | cons p rest ih =>
    cases rest with
    | nil =>
      by_cases hp : p = []
      · simp [recordLines, hp]
      · intro x hx
        simp only [recordLines, hp, if_false, List.mem_singleton] at hx
        subst hx
        cases p with
        | nil => exact absurd rfl hp
        | cons y ys => simp
    | cons q rest' =>
      intro x hx
      simp only [recordLines, List.mem_cons] at hx
      rcases hx with rfl | hx
      · omega
      · exact ih x hx

theorem recordLines_splitNl_ne_nil (c : List Nat) (hc : c ≠ []) :
    recordLines (splitNl c) ≠ [] := by
  intro h
  have hs := recordLines_splitNl_sum c
  rw [h] at hs
  simp only [List.sum_nil] at hs
  exact hc (List.length_eq_zero.mp hs.symm)

/-! ## The reachable-state invariant -/

/-- The structural invariant maintained by `add_file_raw`. -/
def SFInv (sf : SourceFile) : Prop :=
  sf.file_names.length = sf.file_lines.length ∧
  sf.file_lines.sum = sf.line_lengths.length ∧
  sf.line_lengths.sum = sf.contents.length ∧
  (∀ x ∈ sf.line_lengths, 1 ≤ x) ∧
  (∀ x ∈ sf.file_lines, 1 ≤ x)

theorem sfInv_new : SFInv SourceFile.new := by
  refine ⟨rfl, rfl, rfl, ?_, ?_⟩ <;> simp [SourceFile.new]

theorem sfInv_add (sf : SourceFile) (n : String) (c : List Nat) (h : SFInv sf) :
    SFInv (sf.add_file_raw n c) := by
  obtain ⟨h1, h2, h3, h4, h5⟩ := h
  by_cases hc : c = []
  · simpa [SourceFile.add_file_raw, hc] using ⟨h1, h2, h3, h4, h5⟩
  · simp only [SourceFile.add_file_raw, hc, if_false]
    refine ⟨?_, ?_, ?_, ?_, ?_⟩
    · simp [h1]
    · simp [h2]
    · simp only [List.sum_append, List.length_append, h3,
        recordLines_splitNl_sum]
    · intro x hx
      simp only [List.mem_append] at hx
      rcases hx with hx | hx
      · exact h4 x hx
      · exact recordLines_pos _ x hx
    · intro x hx
      simp only [List.mem_append, List.mem_singleton] at hx
      rcases hx with hx | rfl
      · exact h5 x hx
      · exact List.length_pos.mpr (recordLines_splitNl_ne_nil c hc)

theorem sfInv_foldl :
    ∀ (l : List (String × List Nat)) (sf : SourceFile), SFInv sf →
      SFInv (l.foldl (fun sf p => sf.add_file_raw p.1 p.2) sf) := by
  intro l
  induction l with
  | nil => intro sf h; exact h
  | cons p rest ih => intro sf h; exact ih _ (sfInv_add _ _ _ h)

theorem sfInv_build (l : List (String × List Nat)) : SFInv (SourceFile.build l) :=
  sfInv_foldl l _ sfInv_new

/-! ## Characterization of the two searches -/

theorem lineSearch_some_spec (offset : Nat) (ll : List Nat) (i a : Nat)
    (h : lineSearch offset ll = some (i, a)) :
    i < ll.length ∧ a = (ll.take (i + 1)).sum ∧ offset < a ∧
      ∀ m, m ≤ i → (ll.take m).sum ≤ offset := by
  cases ll with
  | nil => simp [lineSearch] at h
  | cons l0 t =>
    simp only [lineSearch] at h
    obtain ⟨k, hk, hj, ha, hta, hmin⟩ := scanLoop_some_spec offset t l0 0 i a h
    have hik : i = k := by omega
    subst hik
    refine ⟨by simp; omega, ?_, hta, ?_⟩
    · simp only [List.take_succ_cons, List.sum_cons]
      omega
    · intro m hm
      cases m with
      | zero => simp
      | succ m' =>
        have := hmin m' (by omega)
        simp only [List.take_succ_cons, List.sum_cons]
        omega

theorem lineSearch_exists (offset : Nat) (ll : List Nat) (h : offset < ll.sum) :
    ∃ i a, lineSearch offset ll = some (i, a) := by
  cases ll with
  | nil => simp at h
  | cons l0 t =>
    simp only [lineSearch]
    exact scanLoop_exists offset t l0 0 (by simp only [List.sum_cons] at h; omega)

theorem lineSearch_none (offset : Nat) (ll : List Nat) (h : ll.sum ≤ offset) :
    lineSearch offset ll = none := by
  cases ll with
  | nil => rfl
  | cons l0 t =>
    simp only [lineSearch]
    exact scanLoop_none_spec offset t l0 0 (by simp only [List.sum_cons] at h; omega)

theorem fileSearch_ok_spec (lineIdx : Nat) (fl : List Nat) (f b : Nat)
    (h : fileSearch lineIdx fl = .ok (f, b)) :
    f < fl.length ∧ b = (fl.take (f + 1)).sum ∧ lineIdx < b ∧
      ∀ m, m ≤ f → (fl.take m).sum ≤ lineIdx := by
  cases fl with
  | nil => simp [fileSearch] at h
  | cons f0 t =>
    simp only [fileSearch] at h
    obtain ⟨k, hk, hj, ha, hta, hmin⟩ := scanLoopP_ok_spec lineIdx t f0 0 f b h
    have hik : f = k := by omega
    subst hik
    refine ⟨by simp; omega, ?_, hta, ?_⟩
    · simp only [List.take_succ_cons, List.sum_cons]
      omega
    · intro m hm
      cases m with
      | zero => simp
      | succ m' =>
        have := hmin m' (by omega)
        simp only [List.take_succ_cons, List.sum_cons]
        omega

theorem fileSearch_exists (lineIdx : Nat) (fl : List Nat) (h : lineIdx < fl.sum) :
    ∃ f b, fileSearch lineIdx fl = .ok (f, b) := by
  cases fl with
  | nil => simp at h
  | cons f0 t =>
    simp only [fileSearch]
    exact scanLoopP_exists lineIdx t f0 0 (by simp only [List.sum_cons] at h; omega)

/-! ## The central resolution theorem -/

/-- On an invariant-satisfying state, an in-range offset resolves without a
panic to the position characterized by prefix sums of `line_lengths` and
`file_lines`. -/
theorem resolveE_spec (sf : SourceFile) (hInv : SFInv sf) (o : Nat)
    (ho : o < sf.contents.length) :
    ∃ (p : Position) (i f : Nat),
      sf.resolve_offsetE o = .ok (some p) ∧
      i < sf.line_lengths.length ∧ f < sf.file_lines.length ∧
      o < (sf.line_lengths.take (i + 1)).sum ∧
      (∀ j, o < (sf.line_lengths.take (j + 1)).sum → i ≤ j) ∧
      p.col = o - (sf.line_lengths.take i).sum ∧
      i < (sf.file_lines.take (f + 1)).sum ∧
      (∀ g, i < (sf.file_lines.take (g + 1)).sum → f ≤ g) ∧
      p.line = i - (sf.file_lines.take f).sum ∧
      sf.file_names.get? f = some p.filename := by
  obtain ⟨h1, h2, h3, h4, h5⟩ := hInv
  have hosum : o < sf.line_lengths.sum := by omega
  obtain ⟨i, a, hls⟩ := lineSearch_exists o _ hosum
  obtain ⟨hi_lt, ha, hoa, hmin⟩ := lineSearch_some_spec o _ i a hls
  have hgetl : sf.line_lengths.get? i = some (sf.line_lengths.get ⟨i, hi_lt⟩) :=
    List.get?_eq_get hi_lt
  have hsucc : (sf.line_lengths.take (i + 1)).sum
      = (sf.line_lengths.take i).sum + sf.line_lengths.get ⟨i, hi_lt⟩ := by
    simpa using List.sum_take_succ sf.line_lengths i hi_lt
  have hll_le : (sf.line_lengths.take i).sum ≤ o := hmin i (Nat.le_refl i)
  have hsub1 : checkedSub a (sf.line_lengths.get ⟨i, hi_lt⟩)
      = .ok ((sf.line_lengths.take i).sum) := by
    unfold checkedSub
    rw [if_pos (by omega)]
    congr 1
    omega
  have hisum : i < sf.file_lines.sum := by omega
  obtain ⟨f, b, hfs⟩ := fileSearch_exists i _ hisum
  obtain ⟨hf_lt, hb, hib, hfmin⟩ := fileSearch_ok_spec i _ f b hfs
  have hgetf : sf.file_lines.get? f = some (sf.file_lines.get ⟨f, hf_lt⟩) :=
    List.get?_eq_get hf_lt
  have hfsucc : (sf.file_lines.take (f + 1)).sum
      = (sf.file_lines.take f).sum + sf.file_lines.get ⟨f, hf_lt⟩ := by
    simpa using List.sum_take_succ sf.file_lines f hf_lt
  have hfl_le : (sf.file_lines.take f).sum ≤ i := hfmin f (Nat.le_refl f)
  have hsub2 : checkedSub b (sf.file_lines.get ⟨f, hf_lt⟩)
      = .ok ((sf.file_lines.take f).sum) := by
    unfold checkedSub
    rw [if_pos (by omega)]
    congr 1
    omega
  have hf_names : f < sf.file_names.length := by omega
  have hgetn : sf.file_names.get? f = some (sf.file_names.get ⟨f, hf_names⟩) :=
    List.get?_eq_get hf_names
  have hsub3 : checkedSub i ((sf.file_lines.take f).sum)
      = .ok (i - (sf.file_lines.take f).sum) := by
    unfold checkedSub
    rw [if_pos hfl_le]
  have hsub4 : checkedSub o ((sf.line_lengths.take i).sum)
      = .ok (o - (sf.line_lengths.take i).sum) := by
    unfold checkedSub
    rw [if_pos hll_le]
  refine ⟨⟨sf.file_names.get ⟨f, hf_names⟩, i - (sf.file_lines.take f).sum,
      o - (sf.line_lengths.take i).sum⟩, i, f,
    ?_, hi_lt, hf_lt, by omega, ?_, rfl, by omega, ?_, rfl, hgetn⟩
  · simp only [SourceFile.resolve_offsetE, hls, hgetl, hsub1, hfs, hgetf,
      hsub2, hgetn, hsub3, hsub4]
  · intro j hj
    by_contra hij
    push_neg at hij
    have := hmin (j + 1) (by omega)
    omega
  · intro g hg
    by_contra hfg
    push_neg at hfg
    have := hfmin (g + 1) (by omega)
    omega

/-- Out-of-range offsets resolve (without a panic) to `None` on any
invariant-satisfying state. -/
theorem resolveE_none_of_ge (sf : SourceFile) (hInv : SFInv sf) (o : Nat)
    (ho : sf.contents.length ≤ o) : sf.resolve_offsetE o = .ok none := by
  obtain ⟨h1, h2, h3, h4, h5⟩ := hInv
  have hls : lineSearch o sf.line_lengths = none :=
    lineSearch_none o _ (by omega)
  simp only [SourceFile.resolve_offsetE, hls]

/-! ## Facts about appended state -/

theorem add_file_raw_contents (sf : SourceFile) (n : String) (c : List Nat)
    (hc : c ≠ []) : (sf.add_file_raw n c).contents = sf.contents ++ c := by
  simp [SourceFile.add_file_raw, hc]

/-- All four tables only grow by appending at the back. -/
theorem add_file_raw_append (sf : SourceFile) (n : String) (c : List Nat) :
    ∃ c2 n2 f2 l2,
      (sf.add_file_raw n c).contents = sf.contents ++ c2 ∧
      (sf.add_file_raw n c).file_names = sf.file_names ++ n2 ∧
      (sf.add_file_raw n c).file_lines = sf.file_lines ++ f2 ∧
      (sf.add_file_raw n c).line_lengths = sf.line_lengths ++ l2 := by
  by_cases hc : c = []
  · exact ⟨[], [], [], [], by simp [SourceFile.add_file_raw, hc]⟩
  · exact ⟨c, [n], [(recordLines (splitNl c)).length], recordLines (splitNl c),
      by simp [SourceFile.add_file_raw, hc]⟩

/-- The shape of the state after the first non-empty file was added: each
table starts with that file's entry, the head line length is positive and the
head file line count is positive. -/
def FirstFile (n : String) (sf : SourceFile) : Prop :=
  (∃ t, sf.file_names = n :: t) ∧
  (∃ l t, sf.line_lengths = l :: t ∧ 1 ≤ l) ∧
  (∃ f t, sf.file_lines = f :: t ∧ 1 ≤ f)

theorem firstFile_add (sf : SourceFile) (n m : String) (c : List Nat)
    (h : FirstFile n sf) : FirstFile n (sf.add_file_raw m c) := by
  obtain ⟨⟨tn, hn⟩, ⟨l, tl, hl, hl1⟩, ⟨f, tf, hf, hf1⟩⟩ := h
  obtain ⟨c2, n2, f2, l2, hc2, hn2, hf2, hl2⟩ := add_file_raw_append sf m c
  refine ⟨⟨tn ++ n2, ?_⟩, ⟨l, tl ++ l2, ?_, hl1⟩, ⟨f, tf ++ f2, ?_, hf1⟩⟩
  · rw [hn2, hn]; rfl
  · rw [hl2, hl]; rfl
  · rw [hf2, hf]; rfl

theorem firstFile_new_add (n : String) (c : List Nat) (hc : c ≠ []) :
    FirstFile n (SourceFile.new.add_file_raw n c) := by
  have hrec := recordLines_splitNl_ne_nil c hc
  obtain ⟨l, tl, hl⟩ := List.exists_cons_of_ne_nil hrec
  refine ⟨⟨[], by simp [SourceFile.add_file_raw, hc, SourceFile.new]⟩,
    ⟨l, tl, ?_, ?_⟩,
    ⟨(recordLines (splitNl c)).length, [], ?_, ?_⟩⟩
  · simp [SourceFile.add_file_raw, hc, SourceFile.new, hl]
  · exact recordLines_pos _ l (by rw [hl]; exact List.mem_cons_self _ _)
  · simp [SourceFile.add_file_raw, hc, SourceFile.new]
  · rw [hl]; simp

theorem firstFile_foldl (n : String) :
    ∀ (L : List (String × List Nat)) (sf : SourceFile), FirstFile n sf →
      FirstFile n (L.foldl (fun sf p => sf.add_file_raw p.1 p.2) sf) := by
  intro L
  induction L with
  | nil => intro sf h; exact h
  | cons p rest ih => intro sf h; exact ih _ (firstFile_add _ _ _ _ h)

/-- Offset `0` resolves to line 0, column 0 of the first file. -/
theorem resolveE_zero (sf : SourceFile) (n : String) (h : FirstFile n sf) :
    sf.resolve_offsetE 0 = .ok (some ⟨n, 0, 0⟩) := by
  obtain ⟨⟨tn, hn⟩, ⟨l, tl, hl, hl1⟩, ⟨f, tf, hf, hf1⟩⟩ := h
  have hls : lineSearch 0 sf.line_lengths = some (0, l) := by
    rw [hl]
    simp only [lineSearch]
    exact scanLoop_here 0 l 0 tl (by omega)
  have hg1 : sf.line_lengths.get? 0 = some l := by rw [hl]; rfl
  have hs1 : checkedSub l l = .ok 0 := by simp [checkedSub]
  have hfs : fileSearch 0 sf.file_lines = .ok (0, f) := by
    rw [hf]
    simp only [fileSearch]
    exact scanLoopP_here 0 f 0 tf (by omega)
  have hg2 : sf.file_lines.get? 0 = some f := by rw [hf]; rfl
  have hs2 : checkedSub f f = .ok 0 := by simp [checkedSub]
  have hg3 : sf.file_names.get? 0 = some n := by rw [hn]; rfl
  have hs3 : checkedSub 0 0 = .ok 0 := by simp [checkedSub]
  simp only [SourceFile.resolve_offsetE, hls, hg1, hs1, hfs, hg2, hs2, hg3, hs3]

theorem foldl_contents_length :
    ∀ (L : List (String × List Nat)) (sf : SourceFile),
      (∀ p ∈ L, p.2 ≠ []) →
      (L.foldl (fun sf p => sf.add_file_raw p.1 p.2) sf).contents.length
        = sf.contents.length + (L.map (fun p => p.2.length)).sum := by
  intro L
  induction L with
  | nil => intro sf _; simp
  | cons p rest ih =>
    intro sf h
    simp only [List.foldl_cons, List.map_cons, List.sum_cons]
    rw [ih _ (fun q hq => h q (List.mem_cons_of_mem _ hq))]
    rw [add_file_raw_contents sf p.1 p.2 (h p (List.mem_cons_self _ _))]
    simp
    omega

/-- `recordLines` on pieces `init ++ [last]`: each of `init` records its
length plus one; `last` records nothing when empty and its raw length
otherwise. -/
theorem recordLines_concat (init : List (List Nat)) (last : List Nat) :
    recordLines (init ++ [last])
      = init.map (fun p => p.length + 1)
        ++ (if last = [] then [] else [last.length]) := by
  induction init with
  | nil => simp [recordLines]
  | cons p rest ih =>
    cases rest with
    | nil => simp [recordLines]
    | cons q rest' =>
      simp only [List.cons_append, recordLines, List.map_cons,
        List.append_eq] at ih ⊢
      rw [ih]

/-! ## The claims -/

/-- C1: on every reachable state and every in-range offset `o`,
`resolve_offset o` returns `some` position whose global line index `i` is the
smallest index with `sum line_lengths[0..=i] > o`, whose column is `o` minus
the prefix sum strictly before line `i`, whose file index `f` is the smallest
index with `sum file_lines[0..=f] > i`, whose line is `i` minus the prefix
sum strictly before file `f`, and whose filename is `file_names[f]`. -/
theorem C1_resolve_offset_correct (l : List (String × List Nat)) (o : Nat)
    (ho : o < (SourceFile.build l).contents.length) :
    ∃ (p : Position) (i f : Nat),
      (SourceFile.build l).resolve_offset o = some p ∧
      o < ((SourceFile.build l).line_lengths.take (i + 1)).sum ∧
      (∀ j, o < ((SourceFile.build l).line_lengths.take (j + 1)).sum → i ≤ j) ∧
      p.col = o - ((SourceFile.build l).line_lengths.take i).sum ∧
      i < ((SourceFile.build l).file_lines.take (f + 1)).sum ∧
      (∀ g, i < ((SourceFile.build l).file_lines.take (g + 1)).sum → f ≤ g) ∧
      p.line = i - ((SourceFile.build l).file_lines.take f).sum ∧
      (SourceFile.build l).file_names.get? f = some p.filename := by
  obtain ⟨p, i, f, hE, _, _, h4, h5, h6, h7, h8, h9, h10⟩ :=
    resolveE_spec _ (sfInv_build l) o ho
  refine ⟨p, i, f, ?_, h4, h5, h6, h7, h8, h9, h10⟩
  simp [SourceFile.resolve_offset, hE]

theorem C1_witness :
    2 < (SourceFile.build [("a", [104, 10, 105])]).contents.length ∧
    ∃ (p : Position) (i f : Nat),
      (SourceFile.build [("a", [104, 10, 105])]).resolve_offset 2 = some p ∧
      2 < ((SourceFile.build [("a", [104, 10, 105])]).line_lengths.take (i + 1)).sum ∧
      (∀ j, 2 < ((SourceFile.build [("a", [104, 10, 105])]).line_lengths.take (j + 1)).sum → i ≤ j) ∧
      p.col = 2 - ((SourceFile.build [("a", [104, 10, 105])]).line_lengths.take i).sum ∧
      i < ((SourceFile.build [("a", [104, 10, 105])]).file_lines.take (f + 1)).sum ∧
      (∀ g, i < ((SourceFile.build [("a", [104, 10, 105])]).file_lines.take (g + 1)).sum → f ≤ g) ∧
      p.line = i - ((SourceFile.build [("a", [104, 10, 105])]).file_lines.take f).sum ∧
      (SourceFile.build [("a", [104, 10, 105])]).file_names.get? f = some p.filename :=
  ⟨by decide, C1_resolve_offset_correct [("a", [104, 10, 105])] 2 (by decide)⟩

/-- C2: `add_file_raw` on non-empty content splits on the newline byte; every
piece except the last records `len + 1` and counts one line; an empty last
piece records nothing, a non-empty last piece records its raw length and
counts one line.  A single newline records exactly one line of length 1, and
a single space records exactly one line of length 1. -/
theorem C2_add_file_raw_lines (sf : SourceFile) (n : String) (c : List Nat)
    (hc : c ≠ []) (init : List (List Nat)) (last : List Nat)
    (hsplit : splitNl c = init ++ [last]) :
    (sf.add_file_raw n c).line_lengths
      = sf.line_lengths ++ init.map (fun p => p.length + 1)
        ++ (if last = [] then [] else [last.length]) ∧
    (sf.add_file_raw n c).file_lines
      = sf.file_lines ++ [init.length + (if last = [] then 0 else 1)] ∧
    (SourceFile.new.add_file_raw "nl" [10]).line_lengths = [1] ∧
    (SourceFile.new.add_file_raw "test" [32]).line_lengths = [1] := by
  have hrec := recordLines_concat init last
  refine ⟨?_, ?_, by decide, by decide⟩
  · simp [SourceFile.add_file_raw, hc, hsplit, hrec]
  · simp only [SourceFile.add_file_raw, hc, if_false, hsplit, hrec]
    by_cases hl : last = []
    · simp [hl]
    · simp [hl]

theorem C2_witness :
    ([32] : List Nat) ≠ [] ∧ splitNl [32] = [] ++ [[32]] ∧
    ((SourceFile.new.add_file_raw "test" [32]).line_lengths
      = SourceFile.new.line_lengths ++ ([] : List (List Nat)).map (fun p => p.length + 1)
        ++ (if ([32] : List Nat) = [] then [] else [([32] : List Nat).length]) ∧
    (SourceFile.new.add_file_raw "test" [32]).file_lines
      = SourceFile.new.file_lines ++ [([] : List (List Nat)).length + (if ([32] : List Nat) = [] then 0 else 1)] ∧
    (SourceFile.new.add_file_raw "nl" [10]).line_lengths = [1] ∧
    (SourceFile.new.add_file_raw "test" [32]).line_lengths = [1]) :=
  ⟨by decide, by decide,
    C2_add_file_raw_lines SourceFile.new "test" [32] (by decide) [] [32] (by decide)⟩

/-- C3: in every state reachable from the empty source file by `add_file_raw`
calls, `len file_names = len file_lines`, `sum file_lines = len line_lengths`
and `sum line_lengths = len contents`. -/
theorem C3_invariants (l : List (String × List Nat)) :
    (SourceFile.build l).file_names.length
      = (SourceFile.build l).file_lines.length ∧
    (SourceFile.build l).file_lines.sum
      = (SourceFile.build l).line_lengths.length ∧
    (SourceFile.build l).line_lengths.sum
      = (SourceFile.build l).contents.length := by
  obtain ⟨h1, h2, h3, _, _⟩ := sfInv_build l
  exact ⟨h1, h2, h3⟩

/-- C4: `resolve_offset_span start stop` is `none` when `stop < start`;
otherwise it is `none` exactly when one of the two offsets resolves to
`none`, and otherwise its fields are the two resolved positions. -/
theorem C4_resolve_offset_span (sf : SourceFile) (s e : Nat) :
    (e < s → sf.resolve_offset_span s e = none) ∧
    (¬ e < s →
      (sf.resolve_offset_span s e = none ↔
        sf.resolve_offset s = none ∨ sf.resolve_offset e = none) ∧
      ∀ a b, sf.resolve_offset s = some a → sf.resolve_offset e = some b →
        sf.resolve_offset_span s e = some ⟨a, b⟩) := by
  constructor
  · intro h
    simp [SourceFile.resolve_offset_span, SourceFile.resolve_offset_spanE, h]
  · intro h
    simp only [SourceFile.resolve_offset_span, SourceFile.resolve_offset_spanE,
      if_neg h]
    rcases hs : sf.resolve_offsetE s with u | os
    · simp [SourceFile.resolve_offset, hs]
    · rcases os with _ | a0
      · simp [SourceFile.resolve_offset, hs]
      · rcases he : sf.resolve_offsetE e with v | oe
        · simp [SourceFile.resolve_offset, hs, he]
        · rcases oe with _ | b0
          · simp [SourceFile.resolve_offset, hs, he]
          · simp only [SourceFile.resolve_offset, hs, he]
            constructor
            · simp
            · intro a b ha hb
              simp only [Option.some.injEq] at ha hb
              rw [← ha, ← hb]

theorem C4_witness :
    SourceFile.new.resolve_offset_span 5 3 = none :=
  (C4_resolve_offset_span SourceFile.new 5 3).1 (by decide)

/-- C5: on every reachable state, `resolve_offset o` is `none` for every
`o ≥ len contents`; in particular `resolve_offset 0` is `none` on the empty
aggregate. -/
theorem C5_out_of_range (l : List (String × List Nat)) (o : Nat)
    (ho : (SourceFile.build l).contents.length ≤ o) :
    (SourceFile.build l).resolve_offset o = none := by
  have hE := resolveE_none_of_ge _ (sfInv_build l) o ho
  simp [SourceFile.resolve_offset, hE]

theorem C5_witness :
    (SourceFile.build []).contents.length ≤ 0 ∧
    (SourceFile.build []).resolve_offset 0 = none :=
  ⟨by decide, C5_out_of_range [] 0 (by decide)⟩

/-- C6: `add_file_raw` with empty content leaves all four fields exactly
unchanged. -/
theorem C6_empty_content_noop (sf : SourceFile) (n : String) :
    (sf.add_file_raw n []).contents = sf.contents ∧
    (sf.add_file_raw n []).file_names = sf.file_names ∧
    (sf.add_file_raw n []).file_lines = sf.file_lines ∧
    (sf.add_file_raw n []).line_lengths = sf.line_lengths := by
  simp [SourceFile.add_file_raw]

/-- C7: when the file read fails, `add_file` returns the read error and all
four fields of the state are unchanged. -/
theorem C7_read_error_unchanged (sf : SourceFile) (n : String) (u : Unit) :
    (sf.add_file n (.error u)).1 = .error u ∧
    (sf.add_file n (.error u)).2.contents = sf.contents ∧
    (sf.add_file n (.error u)).2.file_names = sf.file_names ∧
    (sf.add_file n (.error u)).2.file_lines = sf.file_lines ∧
    (sf.add_file n (.error u)).2.line_lengths = sf.line_lengths := by
  simp [SourceFile.add_file]

/-- C8: for every sequence of non-empty contents appended in order, the final
`len contents` is the sum of the appended lengths, and offset `0` resolves to
the first file's name, line 0, column 0. -/
theorem C8_first_file_zero (n : String) (c : List Nat)
    (L : List (String × List Nat)) (hc : c ≠ []) (hL : ∀ p ∈ L, p.2 ≠ []) :
    (SourceFile.build ((n, c) :: L)).contents.length
      = (((n, c) :: L).map (fun p => p.2.length)).sum ∧
    (SourceFile.build ((n, c) :: L)).resolve_offset 0 = some ⟨n, 0, 0⟩ := by
  have hstep : SourceFile.build ((n, c) :: L)
      = L.foldl (fun sf p => sf.add_file_raw p.1 p.2)
          (SourceFile.new.add_file_raw n c) := rfl
  constructor
  · rw [hstep, foldl_contents_length L _ hL,
      add_file_raw_contents _ n c hc]
    simp [SourceFile.new]
  · have hff : FirstFile n (SourceFile.build ((n, c) :: L)) := by
      rw [hstep]
      exact firstFile_foldl n L _ (firstFile_new_add n c hc)
    have hE := resolveE_zero _ n hff
    simp [SourceFile.resolve_offset, hE]

theorem C8_witness :
    ([32] : List Nat) ≠ [] ∧
    ((SourceFile.build [("a", [32]), ("b", [33, 10])]).contents.length
      = ([("a", ([32] : List Nat)), ("b", [33, 10])].map (fun p => p.2.length)).sum ∧
    (SourceFile.build [("a", [32]), ("b", [33, 10])]).resolve_offset 0
      = some ⟨"a", 0, 0⟩) :=
  ⟨by decide,
    C8_first_file_zero "a" [32] [("b", [33, 10])] (by decide) (by decide)⟩

/-- C9: on every reachable state, `resolve_offset` never panics for any
offset: the panic-aware embedding always returns `.ok` (so every unchecked
index is in bounds and no subtraction underflows). -/
theorem C9_total_no_panic (l : List (String × List Nat)) (o : Nat) :
    ((SourceFile.build l).resolve_offsetE o).isOk = true := by
  by_cases ho : o < (SourceFile.build l).contents.length
  · obtain ⟨p, i, f, hE, _⟩ := resolveE_spec _ (sfInv_build l) o ho
    simp [hE, Except.isOk, Except.toBool]
  · have hE := resolveE_none_of_ge _ (sfInv_build l) o (by omega)
    simp [hE, Except.isOk, Except.toBool]

/-- C10: in every reachable state, every `line_lengths` entry and every
`file_lines` entry is at least 1. -/
theorem C10_entries_positive (l : List (String × List Nat)) :
    (∀ x ∈ (SourceFile.build l).line_lengths, 1 ≤ x) ∧
    (∀ x ∈ (SourceFile.build l).file_lines, 1 ≤ x) := by
  obtain ⟨_, _, _, h4, h5⟩ := sfInv_build l
  exact ⟨h4, h5⟩

theorem C10_witness :
    (1 : Nat) ∈ (SourceFile.build [("a", [32])]).line_lengths ∧ 1 ≤ (1 : Nat) :=
  ⟨by decide, (C10_entries_positive [("a", [32])]).1 1 (by decide)⟩
